import Mathlib

/-!
Verification of the apigentools spec-aggregation engine and CLI surface.

The repository ships `apigentools/cli.py` (the command-line surface); the
spec describes the Spec Aggregation Engine behind it: Fragment Loader,
Reference Resolver, Merger, Splitter and Validator.  The engine itself is
not part of the supplied source tree, so its components are modelled from
the specification text; the CLI parser is embedded directly from
`apigentools/cli.py`.
-/

namespace Apigentools

/-! ## Document tree

The spec's design notes prescribe a tagged-variant document tree
(Node = Scalar | Sequence | Mapping) with explicit reference nodes.
References point at reusable schema definitions and are either
fragment-local (`loc`) or fully qualified into the merged document
(`qual`, rendered as a JSON pointer into `#/components/schemas/`). -/

/-- Modelled from the spec: a `$ref` pointer, either fragment-local or
fully qualified for the merged document. -/
inductive RefPtr where
  | loc : String → RefPtr
  | qual : String → RefPtr
deriving DecidableEq, Repr

/-- The textual form of a reference pointer. -/
def RefPtr.render : RefPtr → String
  | .loc n => n
  | .qual n => "#/components/schemas/" ++ n

/-- The schema name a reference pointer resolves to. -/
def RefPtr.target : RefPtr → String
  | .loc n => n
  | .qual n => n

/-- Modelled from the spec: a structured-document node
(Node = Scalar | Sequence | Mapping, plus reference nodes). -/
inductive Node where
  | scalar : String → Node
  | ref : RefPtr → Node
  | seq : List Node → Node
  | map : List (String × Node) → Node
deriving Repr

/-! ## Reference Resolver

Modelled from the spec: the Reference Resolver walks all reference nodes
and either rewrites a fragment-local reference into a fully-qualified one
("qualify" mode, used after merging) or rewrites a merged reference into
the relative form expected inside a split fragment ("relativize" mode). -/

/-- Qualify one pointer: a fragment-local reference becomes fully
qualified; an already-qualified reference is left unchanged. -/
def qualifyRef : RefPtr → RefPtr
  | .loc n => .qual n
  | .qual n => .qual n

/-- Relativize one pointer: a qualified reference becomes fragment-local. -/
def relativizeRef : RefPtr → RefPtr
  | .loc n => .loc n
  | .qual n => .loc n

mutual

/-- "Qualify" mode of the Reference Resolver on one node. -/
def qualifyNode : Node → Node
  | .scalar s => .scalar s
  | .ref r => .ref (qualifyRef r)
  | .seq xs => .seq (qualifyList xs)
  | .map kvs => .map (qualifyPairs kvs)

/-- "Qualify" mode on a sequence of nodes. -/
def qualifyList : List Node → List Node
  | [] => []
  | x :: xs => qualifyNode x :: qualifyList xs

/-- "Qualify" mode on the entries of a mapping. -/
def qualifyPairs : List (String × Node) → List (String × Node)
  | [] => []
  | (k, v) :: xs => (k, qualifyNode v) :: qualifyPairs xs

end

mutual

/-- "Relativize" mode of the Reference Resolver on one node. -/
def relativizeNode : Node → Node
  | .scalar s => .scalar s
  | .ref r => .ref (relativizeRef r)
  | .seq xs => .seq (relativizeList xs)
  | .map kvs => .map (relativizePairs kvs)

/-- "Relativize" mode on a sequence of nodes. -/
def relativizeList : List Node → List Node
  | [] => []
  | x :: xs => relativizeNode x :: relativizeList xs

/-- "Relativize" mode on the entries of a mapping. -/
def relativizePairs : List (String × Node) → List (String × Node)
  | [] => []
  | (k, v) :: xs => (k, relativizeNode v) :: relativizePairs xs

end

mutual

/-- All reference pointers occurring in a node, in traversal order. -/
def refsNode : Node → List RefPtr
  | .scalar _ => []
  | .ref r => [r]
  | .seq xs => refsList xs
  | .map kvs => refsPairs kvs

/-- All reference pointers occurring in a sequence of nodes. -/
def refsList : List Node → List RefPtr
  | [] => []
  | x :: xs => refsNode x ++ refsList xs

/-- All reference pointers occurring in the entries of a mapping. -/
def refsPairs : List (String × Node) → List RefPtr
  | [] => []
  | (_, v) :: xs => refsNode v ++ refsPairs xs

end

mutual

/-- Whether every reference in a node is fragment-local. -/
def localNode : Node → Bool
  | .scalar _ => true
  | .ref r => match r with | .loc _ => true | .qual _ => false
  | .seq xs => localList xs
  | .map kvs => localPairs kvs

/-- Whether every reference in a sequence of nodes is fragment-local. -/
def localList : List Node → Bool
  | [] => true
  | x :: xs => localNode x && localList xs

/-- Whether every reference in a mapping's entries is fragment-local. -/
def localPairs : List (String × Node) → Bool
  | [] => true
  | (_, v) :: xs => localNode v && localPairs xs

end

mutual

/-- Whether every reference in a node is fully qualified. -/
def qualifiedNode : Node → Bool
  | .scalar _ => true
  | .ref r => match r with | .loc _ => false | .qual _ => true
  | .seq xs => qualifiedList xs
  | .map kvs => qualifiedPairs kvs

/-- Whether every reference in a sequence of nodes is fully qualified. -/
def qualifiedList : List Node → Bool
  | [] => true
  | x :: xs => qualifiedNode x && qualifiedList xs

/-- Whether every reference in a mapping's entries is fully qualified. -/
def qualifiedPairs : List (String × Node) → Bool
  | [] => true
  | (_, v) :: xs => qualifiedNode v && qualifiedPairs xs

end

mutual

/-- Structural well-formedness of a node: every mapping anywhere inside
it has duplicate-free keys. -/
def wfNode : Node → Bool
  | .scalar _ => true
  | .ref _ => true
  | .seq xs => wfList xs
  | .map kvs => ((kvs.map Prod.fst).Nodup : Bool) && wfPairs kvs

/-- Structural well-formedness of a sequence of nodes. -/
def wfList : List Node → Bool
  | [] => true
  | x :: xs => wfNode x && wfList xs

/-- Structural well-formedness of a mapping's entries. -/
def wfPairs : List (String × Node) → Bool
  | [] => true
  | (_, v) :: xs => wfNode v && wfPairs xs

end

/-! ## Fragments and the full specification -/

/-- Modelled from the spec: the top-level sections of a full
specification that fragments contribute to.  A fragment is a typed
document ("path fragment", "schema fragment", "tag fragment"). -/
inductive SectionKind where
  | paths
  | schemas
  | tags
deriving DecidableEq, Repr

/-- Directory name of a section in the fragment layout
`(spec-dir)/(version)/(category)/(name).(ext)`. -/
def sectionDir : SectionKind → String
  | .paths => "paths"
  | .schemas => "schemas"
  | .tags => "tags"

/-- Modelled from the spec: a Fragment is a named, typed document
belonging to one API version, with version tag, logical name, raw
structured content and source location. -/
structure Fragment where
  version : String
  name : String
  kind : SectionKind
  content : List (String × Node)
  sourcePath : String
deriving Repr

/-- Modelled from the spec: a FullSpec is a single structured document
per version: the union of all fragments plus top-level metadata
(represented by the `info` section). -/
structure FullSpec where
  info : Option Node
  paths : List (String × Node)
  schemas : List (String × Node)
  tags : List (String × Node)
deriving Repr

/-- The entries of one section of a FullSpec. -/
def FullSpec.sectionOf : FullSpec → SectionKind → List (String × Node)
  | fs, .paths => fs.paths
  | fs, .schemas => fs.schemas
  | fs, .tags => fs.tags

/-- Qualify mode of the Reference Resolver over a whole FullSpec. -/
def qualifySpec (fs : FullSpec) : FullSpec :=
  { info := fs.info.map qualifyNode
  , paths := qualifyPairs fs.paths
  , schemas := qualifyPairs fs.schemas
  , tags := qualifyPairs fs.tags }

/-- Whether every reference of a FullSpec is fully qualified. -/
def qualifiedSpec (fs : FullSpec) : Bool :=
  (match fs.info with | some n => qualifiedNode n | none => true)
    && qualifiedPairs fs.paths && qualifiedPairs fs.schemas
    && qualifiedPairs fs.tags

/-! ## Merger

Modelled from the spec: the Merger accumulates each fragment's top-level
keys into the FullSpec's corresponding section, checking before every
insertion that the destination key is absent (raising `CollisionError`
identifying both contributing fragments and the key otherwise); after all
fragments are merged it invokes the Reference Resolver in "qualify" mode,
which fails with `DanglingReferenceError` (naming the offending pointer
and its source fragment) on any reference that does not resolve within
the version's fragment set.  Sections of the produced document are
emitted in sorted key order so that merge output is deterministic and
independent of fragment enumeration order. -/

/-- Structured error values of the merge pipeline. -/
inductive MergeError where
  | collision (key : String) (first : String) (second : String)
  | dangling (pointer : String) (fragment : String)
deriving DecidableEq, Repr

/-- A section entry together with the name of the fragment that
contributed it. -/
abbrev TaggedEntry := String × String × Node

/-- Tag a fragment's entries with the fragment's name. -/
def tagEntries (fragName : String) (entries : List (String × Node)) :
    List TaggedEntry :=
  entries.map (fun e => (e.1, fragName, e.2))

/-- Insert one fragment's entries into an accumulated section,
failing with a collision error when a destination key is already
present. -/
def insertEntries (fragName : String) :
    List (String × Node) → List TaggedEntry →
    Except MergeError (List TaggedEntry)
  | [], acc => .ok acc
  | (k, v) :: rest, acc =>
    match acc.find? (fun e => e.1 == k) with
    | some e => .error (.collision k e.2.1 fragName)
    | none => insertEntries fragName rest (acc ++ [(k, fragName, v)])

/-- Accumulate the entries of every fragment of one section kind. -/
def accumulateSection (sk : SectionKind) :
    List Fragment → List TaggedEntry →
    Except MergeError (List TaggedEntry)
  | [], acc => .ok acc
  | f :: fs, acc =>
    if f.kind = sk then
      match insertEntries f.name f.content acc with
      | .error e => .error e
      | .ok acc' => accumulateSection sk fs acc'
    else
      accumulateSection sk fs acc

/-- The tagged entries of all fragments of one section kind, in
enumeration order. -/
def taggedSection (sk : SectionKind) (frags : List Fragment) :
    List TaggedEntry :=
  (frags.filter (fun f => f.kind = sk)).flatMap
    (fun f => tagEntries f.name f.content)

/-- All reference pointers occurring in one fragment. -/
def fragmentRefs (f : Fragment) : List RefPtr :=
  refsPairs f.content

/-- The first reference of a fragment that does not resolve to one of
the given schema keys. -/
def findBadRef (keys : List String) (f : Fragment) : Option RefPtr :=
  (fragmentRefs f).find? (fun r => !(keys.contains r.target))

/-- Walk the fragments and report the first dangling reference as an
error naming the offending pointer and its source fragment. -/
def findDangling (keys : List String) : List Fragment → Option MergeError
  | [] => none
  | f :: fs =>
    match findBadRef keys f with
    | some r => some (.dangling r.render f.name)
    | none => findDangling keys fs

/-- Sort section keys for deterministic output ordering. -/
def sortKeys (ks : List String) : List String :=
  List.insertionSort (· ≤ ·) ks

/-- Look up the node stored under a key in an accumulated section. -/
def lookupTagged (k : String) (l : List TaggedEntry) : Option Node :=
  (l.find? (fun e => e.1 == k)).map (fun e => e.2.2)

/-- Emit an accumulated section in sorted key order, with every
reference qualified for the merged document. -/
def canonSection (l : List TaggedEntry) : List (String × Node) :=
  (sortKeys (l.map (fun e => e.1))).filterMap
    (fun k => (lookupTagged k l).map (fun n => (k, qualifyNode n)))

/-- The schema keys visible in an accumulated schemas section. -/
def accSchemaKeys (l : List TaggedEntry) : List String :=
  l.map (fun e => e.1)

/-- Merge a fragment set into one FullSpec: accumulate every section
with collision checking, then resolve references (failing on dangling
ones) and qualify them, emitting sections in sorted key order. -/
def mergeFragments (frags : List Fragment) : Except MergeError FullSpec :=
  match accumulateSection .paths frags [] with
  | .error e => .error e
  | .ok accP =>
    match accumulateSection .schemas frags [] with
    | .error e => .error e
    | .ok accS =>
      match accumulateSection .tags frags [] with
      | .error e => .error e
      | .ok accT =>
        match findDangling (accSchemaKeys accS) frags with
        | some e => .error e
        | none =>
          .ok { info := none
              , paths := canonSection accP
              , schemas := canonSection accS
              , tags := canonSection accT }

/-! ## Splitter

Modelled from the spec: the Splitter decomposes one FullSpec into the
fragment layout the Merger expects, given a target version tag.  For
each top-level section it partitions entries by a naming convention
(path fragments are grouped by leading path segment); an entry matching
no convention goes into the designated default fragment "misc", never
dropped.  The Reference Resolver runs in "relativize" mode on each
candidate fragment. -/

/-- The leading path segment of a path key, when it has one. -/
def pathGroup (key : String) : Option String :=
  if key.startsWith "/" then
    let seg := (key.drop 1).takeWhile (fun c => c ≠ '/')
    if seg = "" then none else some seg
  else
    none

/-- The fragment a section entry is grouped into when splitting: path
entries group by leading path segment; entries matching no grouping
convention fall back to the default fragment "misc". -/
def groupOf (sk : SectionKind) (key : String) : String :=
  match sk with
  | .paths => (pathGroup key).getD "misc"
  | .schemas => "misc"
  | .tags => "misc"

/-- Split one section of a FullSpec into candidate fragments, one per
occurring group, relativizing every reference. -/
def splitSection (version : String) (sk : SectionKind)
    (entries : List (String × Node)) : List Fragment :=
  ((entries.map (fun e => groupOf sk e.1)).dedup).map
    (fun g =>
      { version := version
      , name := g
      , kind := sk
      , content := (entries.filter (fun e => groupOf sk e.1 == g)).map
          (fun e => (e.1, relativizeNode e.2))
      , sourcePath := version ++ "/" ++ sectionDir sk ++ "/" ++ g ++ ".yaml" })

/-- Split a FullSpec into the fragment set for one version. -/
def splitSpec (fs : FullSpec) (version : String) : List Fragment :=
  splitSection version .paths fs.paths
    ++ splitSection version .schemas fs.schemas
    ++ splitSection version .tags fs.tags

/-- The entries a fragment set contributes to one section, across all
its fragments. -/
def sectionEntries (sk : SectionKind) (frags : List Fragment) :
    List (String × Node) :=
  (frags.filter (fun f => f.kind = sk)).flatMap (fun f => f.content)

/-- Structural equivalence of fragment sets: the same keys and content
per section; fragment-name grouping is excluded from the comparison. -/
def FragSetEquiv (g f : List Fragment) : Prop :=
  ∀ sk kv, kv ∈ sectionEntries sk g ↔ kv ∈ sectionEntries sk f

/-! ## Validator

Modelled from the spec: the Validator checks one FullSpec with four
independent checks, all executed with no short-circuit: (1) every
reference resolves; (2) no duplicate operation identifiers; (3) required
top-level sections present (info, paths); (4) schema nodes conform to
the structural constraints of the format.  It returns the list of all
violations found (empty = valid) as `(severity, location, message)`
triples, never raising and never mutating its input. -/

/-- One Validator violation: a (severity, location, message) triple. -/
structure Violation where
  severity : String
  location : String
  message : String
deriving DecidableEq, Repr

/-- All reference pointers occurring anywhere in a FullSpec. -/
def specRefs (fs : FullSpec) : List RefPtr :=
  (match fs.info with | some n => refsNode n | none => [])
    ++ refsPairs fs.paths ++ refsPairs fs.schemas ++ refsPairs fs.tags

/-- Check (1): every reference resolves to a schema present in the
document; one violation per dangling reference. -/
def checkRefs (fs : FullSpec) : List Violation :=
  (specRefs fs).filterMap
    (fun r =>
      if (fs.schemas.map Prod.fst).contains r.target then none
      else some ⟨"error", r.render, "dangling reference"⟩)

/-- The operation identifiers declared in one path entry's node. -/
def collectOpIds (n : Node) : List String :=
  match n with
  | .map ops =>
    ops.flatMap
      (fun op =>
        match op.2 with
        | .map fields =>
          fields.filterMap
            (fun kv =>
              match kv with
              | ("operationId", .scalar s) => some s
              | _ => none)
        | _ => [])
  | _ => []

/-- All operation identifiers of a FullSpec, in document order. -/
def allOpIds (fs : FullSpec) : List String :=
  fs.paths.flatMap (fun e => collectOpIds e.2)

/-- Check (2): no duplicate operation identifiers; one violation per
duplicated identifier. -/
def checkOpIds (fs : FullSpec) : List Violation :=
  (((allOpIds fs).filter (fun s => 1 < (allOpIds fs).count s)).dedup).map
    (fun s => ⟨"error", s, "duplicate operation id"⟩)

/-- Check (3): required top-level sections (info, paths) are present. -/
def checkRequired (fs : FullSpec) : List Violation :=
  (if fs.info.isNone then
    [⟨"error", "info", "missing required section"⟩] else [])
    ++ (if fs.paths.isEmpty then
      [⟨"error", "paths", "missing required section"⟩] else [])

/-- Check (4): schema nodes conform to the structural constraints of
the format (duplicate-free mapping keys throughout). -/
def checkSchemas (fs : FullSpec) : List Violation :=
  fs.schemas.filterMap
    (fun e =>
      if wfNode e.2 then none
      else some ⟨"error", e.1, "malformed schema node"⟩)

/-- Run all four independent checks and return every violation found. -/
def validate (fs : FullSpec) : List Violation :=
  checkRefs fs ++ checkOpIds fs ++ checkRequired fs ++ checkSchemas fs

/-- A FullSpec is valid when no check finds a violation. -/
def ValidSpec (fs : FullSpec) : Prop :=
  checkRefs fs = [] ∧ checkOpIds fs = [] ∧ checkRequired fs = []
    ∧ checkSchemas fs = []

/-- A FullSpec with exactly three independent defects: a dangling
reference, a duplicate operation id, and a missing `info` section. -/
def threeDefectSpec : FullSpec :=
  { info := none
  , paths :=
      [ ("/user/get",
          .map [("get", .map
            [ ("operationId", .scalar "getUser")
            , ("schema", .ref (.qual "Missing"))])])
      , ("/user/list",
          .map [("get", .map [("operationId", .scalar "getUser")])]) ]
  , schemas := []
  , tags := [] }

/-! ## Command-line surface

Embedded from `apigentools/cli.py` (`get_cli_parser`): every argument of
the main parser and of the sub-command parsers, with its default source.
`env_or_val` itself lives in `apigentools/utils.py`, which is not part
of the supplied source tree. -/

namespace Cli

/-- Modelled from the spec: `env_or_val` (from `apigentools/utils.py`,
not in the supplied source) supplies a configuration default via an
environment variable, returning the variable's value when set and the
literal fallback otherwise. -/
def env_or_val (env : String → Option String) (var fallback : String) :
    String :=
  (env var).getD fallback

/-- The source of an argument's default value, as written in
`get_cli_parser`. -/
inductive DefaultSrc where
  | envOr (var : String) (fallback : String)
  | envOrFlag (var : String) (fallback : Bool)
  | lit (value : String)
  | litFlag (value : Bool)
  | litList
deriving DecidableEq, Repr

/-- An evaluated default value. -/
inductive Value where
  | str (s : String)
  | flag (b : Bool)
  | list (vs : List String)
deriving DecidableEq, Repr

/-- Evaluate a default source against an environment. -/
def DefaultSrc.eval (env : String → Option String) : DefaultSrc → Value
  | .envOr var fallback => .str (env_or_val env var fallback)
  | .envOrFlag var fallback =>
    match env var with
    | some s => .str s
    | none => .flag fallback
  | .lit value => .str value
  | .litFlag value => .flag value
  | .litList => .list []

/-- Whether a default source consults an environment variable. -/
def DefaultSrc.usesEnv : DefaultSrc → Bool
  | .envOr _ _ => true
  | .envOrFlag _ _ => true
  | .lit _ => false
  | .litFlag _ => false
  | .litList => false

/-- One argument of a parser: its long name, whether the caller must
supply it, and its default source when it has one. -/
structure Arg where
  name : String
  required : Bool
  default : Option DefaultSrc
deriving DecidableEq, Repr

/-- Arguments of the main parser (`cli.py` lines 22-37). -/
def mainArgs : List Arg :=
  [ ⟨"spec-repo-dir", false, some (.envOr "APIGENTOOLS_SPEC_REPO_DIR" ".")⟩
  , ⟨"config-dir", false, some (.envOr "APIGENTOOLS_CONFIG_DIR" "config")⟩
  , ⟨"verbose", false, some (.envOrFlag "APIGENTOOLS_VERBOSE" false)⟩ ]

/-- Arguments of the `generate` sub-parser (`cli.py` lines 44-87). -/
def generateArgs : List Arg :=
  [ ⟨"spec-dir", false, some (.envOr "APIGENTOOLS_SPEC_DIR" "spec")⟩
  , ⟨"full-spec-file", false,
      some (.envOr "APIGENTOOLS_FULL_SPEC_FILE" "full_spec.yaml")⟩
  , ⟨"generated-code-dir", false,
      some (.envOr "APIGENTOOLS_GENERATED_CODE_DIR" "generated")⟩
  , ⟨"additional-stamp", false, some .litList⟩
  , ⟨"generated-with-image", false,
      some (.envOr "APIGENTOOLS_IMAGE" "NO IMAGE!")⟩
  , ⟨"downstream-templates-dir", false,
      some (.envOr "APIGENTOOLS_DOWNSTREAM_TEMPLATES_DIR"
        "downstream-templates")⟩
  , ⟨"template-dir", false,
      some (.envOr "APIGENTOOLS_TEMPLATES_DIR" "templates")⟩
  , ⟨"builtin-templates", false, some (.litFlag false)⟩ ]

/-- The mutually exclusive groups of the `generate` sub-parser
(`cli.py` lines 76-87). -/
def generateGroups : List (List String) :=
  [["template-dir", "builtin-templates"]]

/-- Arguments of the `templates` sub-parser (`cli.py` lines 93-102). -/
def templatesArgs : List Arg :=
  [ ⟨"output-dir", false, some (.envOr "APIGENTOOLS_TEMPLATES_DIR" "templates")⟩
  , ⟨"template-patches-dir", false,
      some (.envOr "APIGENTOOLS_TEMPLATE_PATCHES_DIR" "template-patches")⟩ ]

/-- Argument of the `templates openapi-jar` source (`cli.py` 112-115). -/
def jarArgs : List Arg :=
  [⟨"jar_path", true, none⟩]

/-- Argument of the `templates local-dir` source (`cli.py` 120-123). -/
def localDirArgs : List Arg :=
  [⟨"local_path", true, none⟩]

/-- Arguments of the `templates openapi-git` source (`cli.py` 128-138).
`OPENAPI_GENERATOR_GIT` is a constant from `apigentools/constants.py`,
not in the supplied source; only the fact that the default is a plain
literal matters here. -/
def gitArgs : List Arg :=
  [ ⟨"repo_url", false, some (.lit "OPENAPI_GENERATOR_GIT")⟩
  , ⟨"git_committish", false, some (.lit "master")⟩ ]

/-- Arguments of the `validate` sub-parser (`cli.py` lines 145-154). -/
def validateArgs : List Arg :=
  [ ⟨"spec-dir", false, some (.envOr "APIGENTOOLS_SPEC_DIR" "spec")⟩
  , ⟨"full-spec-file", false,
      some (.envOr "APIGENTOOLS_FULL_SPEC_FILE" "full_spec.yaml")⟩ ]

/-- Arguments of the `test` sub-parser (`cli.py` lines 160-170). -/
def testArgs : List Arg :=
  [ ⟨"no-cache", false,
      some (.envOrFlag "APIGENTOOLS_TEST_BUILD_NO_CACHE" false)⟩
  , ⟨"generated-code-dir", false,
      some (.envOr "APIGENTOOLS_GENERATED_CODE_DIR" "generated")⟩ ]

/-- Arguments of the `split` sub-parser (`cli.py` lines 176-190):
`--input-file` is required; `--api-version` has a default. -/
def splitArgs : List Arg :=
  [ ⟨"input-file", true, none⟩
  , ⟨"spec-dir", false, some (.envOr "APIGENTOOLS_SPEC_DIR" "spec")⟩
  , ⟨"api-version", false,
      some (.envOr "APIGENTOOLS_SPLIT_SPEC_VERSION" "v1")⟩ ]

/-- Every argument defined anywhere in `get_cli_parser`. -/
def allParserArgs : List Arg :=
  mainArgs ++ generateArgs ++ templatesArgs ++ jarArgs ++ localDirArgs
    ++ gitArgs ++ validateArgs ++ testArgs ++ splitArgs

/-- Whether an argument's default (when it has one) comes from an
environment-variable lookup. -/
def argDefaultFromEnv (a : Arg) : Bool :=
  match a.default with
  | some d => d.usesEnv
  | none => true

/-- The result of parsing the `split` sub-command. -/
structure SplitArgs where
  input_file : String
  spec_dir : String
  api_version : String
deriving DecidableEq, Repr

/-- Parse the `split` sub-command: the required `--input-file` must be
supplied; `--spec-dir` and `--api-version` fall back to their
environment-backed defaults. -/
def parseSplit (supplied : List (String × String))
    (env : String → Option String) : Option SplitArgs :=
  match supplied.lookup "input-file" with
  | none => none
  | some f =>
    some
      { input_file := f
      , spec_dir :=
          (supplied.lookup "spec-dir").getD
            (env_or_val env "APIGENTOOLS_SPEC_DIR" "spec")
      , api_version :=
          (supplied.lookup "api-version").getD
            (env_or_val env "APIGENTOOLS_SPLIT_SPEC_VERSION" "v1") }

/-- Whether one mutually exclusive group admits the supplied options:
at most one member of the group may be present. -/
def groupOk (supplied : List String) (g : List String) : Bool :=
  (g.filter (fun a => supplied.contains a)).length ≤ 1

/-- Whether the `generate` sub-command's command line is accepted: the
sub-parser has no required arguments, so acceptance is exactly the
mutually-exclusive-group check. -/
def parseGenerateOk (supplied : List String) : Bool :=
  generateGroups.all (groupOk supplied)

end Cli

/-! ## Concrete example data used to instantiate the theorems -/

/-- An example path fragment whose references are fragment-local. -/
def exFragPaths : Fragment :=
  { version := "v1"
  , name := "user"
  , kind := .paths
  , content :=
      [("/user/get",
        .map [("get", .map
          [ ("operationId", .scalar "getUser")
          , ("schema", .ref (.loc "User"))])])]
  , sourcePath := "spec/v1/paths/user.yaml" }

/-- An example schema fragment defining the schema `User`. -/
def exFragSchemas : Fragment :=
  { version := "v1"
  , name := "user"
  , kind := .schemas
  , content := [("User", .map [("type", .scalar "object")])]
  , sourcePath := "spec/v1/schemas/user.yaml" }

/-- A well-formed two-fragment example set. -/
def exFrags : List Fragment := [exFragPaths, exFragSchemas]

/-- The FullSpec obtained by merging `exFrags`. -/
def exMerged : FullSpec :=
  { info := none
  , paths :=
      [("/user/get",
        .map [("get", .map
          [ ("operationId", .scalar "getUser")
          , ("schema", .ref (.qual "User"))])])]
  , schemas := [("User", .map [("type", .scalar "object")])]
  , tags := [] }

/-- A second schema fragment colliding with `exFragSchemas` on the key
`User`. -/
def exFragSchemas2 : Fragment :=
  { version := "v1"
  , name := "account"
  , kind := .schemas
  , content := [("User", .map [("type", .scalar "string")])]
  , sourcePath := "spec/v1/schemas/account.yaml" }

/-- A schema fragment holding a reference to the absent schema
`Missing`. -/
def exFragDangling : Fragment :=
  { version := "v1"
  , name := "broken"
  , kind := .schemas
  , content := [("Broken", .map [("item", .ref (.qual "Missing"))])]
  , sourcePath := "spec/v1/schemas/broken.yaml" }

/-! ## Collision and dangling-reference predicates -/

/-- Two distinct fragments of a fragment set contribute the same key to
the same section: the fragment named `a` occurs strictly before the
fragment named `b`, both of one section kind, and both define `k`. -/
def TwoContributors (frags : List Fragment) (k a b : String) : Prop :=
  ∃ l₁ f₂ l₂ f₁, frags = l₁ ++ f₂ :: l₂ ∧ f₁ ∈ l₁
    ∧ f₁.kind = f₂.kind ∧ f₁.name = a ∧ f₂.name = b
    ∧ k ∈ f₁.content.map Prod.fst ∧ k ∈ f₂.content.map Prod.fst

/-- A fragment set contains a cross-fragment key collision. -/
def HasCollision (frags : List Fragment) : Prop :=
  ∃ k a b, TwoContributors frags k a b

/-- The schema keys defined across a whole fragment set. -/
def allSchemaKeys (frags : List Fragment) : List String :=
  (sectionEntries .schemas frags).map Prod.fst

/-- A fragment set contains a reference whose target schema is absent
from the full fragment set. -/
def HasDangler (frags : List Fragment) : Prop :=
  ∃ f ∈ frags, ∃ r ∈ fragmentRefs f,
    (allSchemaKeys frags).contains r.target = false

/-! ## Reference Resolver lemmas -/

mutual

theorem qualify_idem_node : ∀ n, qualifyNode (qualifyNode n) = qualifyNode n
  | .scalar _ => rfl
  | .ref r => by cases r <;> rfl
  | .seq xs => by simp only [qualifyNode, qualify_idem_list xs]
  | .map kvs => by simp only [qualifyNode, qualify_idem_pairs kvs]

theorem qualify_idem_list : ∀ xs, qualifyList (qualifyList xs) = qualifyList xs
  | [] => rfl
  | x :: xs => by
    simp only [qualifyList, qualify_idem_node x, qualify_idem_list xs]

theorem qualify_idem_pairs :
    ∀ kvs, qualifyPairs (qualifyPairs kvs) = qualifyPairs kvs
  | [] => rfl
  | (k, v) :: kvs => by
    simp only [qualifyPairs, qualify_idem_node v, qualify_idem_pairs kvs]

end

mutual

theorem qualified_fix_node :
    ∀ n, qualifiedNode n = true → qualifyNode n = n
  | .scalar _, _ => rfl
  | .ref r, h => by cases r with
    | loc n => simp [qualifiedNode] at h
    | qual n => rfl
  | .seq xs, h => by
    simp only [qualifyNode, qualified_fix_list xs (by simpa [qualifiedNode] using h)]
  | .map kvs, h => by
    simp only [qualifyNode, qualified_fix_pairs kvs (by simpa [qualifiedNode] using h)]

theorem qualified_fix_list :
    ∀ xs, qualifiedList xs = true → qualifyList xs = xs
  | [], _ => rfl
  | x :: xs, h => by
    rw [qualifiedList, Bool.and_eq_true] at h
    simp only [qualifyList, qualified_fix_node x h.1, qualified_fix_list xs h.2]

theorem qualified_fix_pairs :
    ∀ kvs, qualifiedPairs kvs = true → qualifyPairs kvs = kvs
  | [], _ => rfl
  | (k, v) :: kvs, h => by
    rw [qualifiedPairs, Bool.and_eq_true] at h
    simp only [qualifyPairs, qualified_fix_node v h.1, qualified_fix_pairs kvs h.2]

end

mutual

theorem rel_qual_node :
    ∀ n, localNode n = true → relativizeNode (qualifyNode n) = n
  | .scalar _, _ => rfl
  | .ref r, h => by cases r with
    | loc n => rfl
    | qual n => simp [localNode] at h
  | .seq xs, h => by
    simp only [qualifyNode, relativizeNode,
      rel_qual_list xs (by simpa [localNode] using h)]
  | .map kvs, h => by
    simp only [qualifyNode, relativizeNode,
      rel_qual_pairs kvs (by simpa [localNode] using h)]

theorem rel_qual_list :
    ∀ xs, localList xs = true → relativizeList (qualifyList xs) = xs
  | [], _ => rfl
  | x :: xs, h => by
    rw [localList, Bool.and_eq_true] at h
    simp only [qualifyList, relativizeList, rel_qual_node x h.1,
      rel_qual_list xs h.2]

theorem rel_qual_pairs :
    ∀ kvs, localPairs kvs = true → relativizePairs (qualifyPairs kvs) = kvs
  | [], _ => rfl
  | (k, v) :: kvs, h => by
    rw [localPairs, Bool.and_eq_true] at h
    simp only [qualifyPairs, relativizePairs, rel_qual_node v h.1,
      rel_qual_pairs kvs h.2]

end

/-- C6: Reference resolution is idempotent: on an already-qualified
FullSpec the Reference Resolver is the identity, and applying it a
second time to any resolver output produces no change. -/
theorem resolver_idempotent :
    (∀ fs : FullSpec, qualifiedSpec fs = true → qualifySpec fs = fs)
    ∧ (∀ fs : FullSpec, qualifySpec (qualifySpec fs) = qualifySpec fs) := by
  constructor
  · intro fs h
    cases fs with
    | mk info paths schemas tags =>
      rw [qualifiedSpec] at h
      simp only [Bool.and_eq_true] at h
      obtain ⟨⟨⟨hinfo, hp⟩, hs⟩, ht⟩ := h
      rw [qualifySpec]
      simp only [qualified_fix_pairs _ hp, qualified_fix_pairs _ hs,
        qualified_fix_pairs _ ht]
      cases info with
      | none => rfl
      | some n => simp only at hinfo; simp [qualified_fix_node n hinfo]
  · intro fs
    cases fs with
    | mk info paths schemas tags =>
      rw [qualifySpec, qualifySpec]
      simp only [qualify_idem_pairs]
      cases info with
      | none => rfl
      | some n => simp [qualify_idem_node n]

/-- Witness for C6 at a concrete already-qualified FullSpec. -/
theorem resolver_idempotent_witness : qualifySpec exMerged = exMerged :=
  resolver_idempotent.1 exMerged (by decide)

/-! ## Validator -/

/-- C4: the Validator runs its four independent checks without
short-circuiting and returns the complete list of violations as data
(it is a pure total function, so it neither raises nor mutates); the
empty list characterizes validity, and the three-defect example
(missing info, duplicate operation id, dangling reference) yields
exactly its three violations. -/
theorem validator_collects_all :
    (∀ fs, validate fs =
      checkRefs fs ++ checkOpIds fs ++ checkRequired fs ++ checkSchemas fs)
    ∧ (∀ fs, validate fs = [] ↔ ValidSpec fs)
    ∧ validate threeDefectSpec =
        [ ⟨"error", "#/components/schemas/Missing", "dangling reference"⟩
        , ⟨"error", "getUser", "duplicate operation id"⟩
        , ⟨"error", "info", "missing required section"⟩ ]
    ∧ (validate threeDefectSpec).length = 3 := by
  refine ⟨fun _ => rfl, fun fs => ?_, by decide, by decide⟩
  rw [validate, ValidSpec]
  simp [List.append_eq_nil, and_assoc]

/-! ## Command-line surface -/

/-- C7 counterexample: the `split` sub-command proceeds although neither
the command line nor the environment supplies a version tag; the version
falls back to its default "v1", so it is not a required input. -/
theorem split_version_optional_counterexample :
    Cli.parseSplit [("input-file", "full_spec.yaml")] (fun _ => none)
      = some ⟨"full_spec.yaml", "spec", "v1"⟩ := rfl

/-- C7 (amended): the required external input of the `split` operation
is the input file: parsing fails exactly when it is missing; the version
tag is accepted but optional, defaulting to the
`APIGENTOOLS_SPLIT_SPEC_VERSION` environment variable or "v1". -/
theorem split_requires_input_file :
    ∀ (supplied : List (String × String)) (env : String → Option String),
      (supplied.lookup "input-file" = none →
        Cli.parseSplit supplied env = none)
      ∧ (∀ f, supplied.lookup "input-file" = some f →
          ∃ r, Cli.parseSplit supplied env = some r ∧ r.input_file = f)
      ∧ (supplied.lookup "api-version" = none →
          env "APIGENTOOLS_SPLIT_SPEC_VERSION" = none →
          ∀ r, Cli.parseSplit supplied env = some r →
            r.api_version = "v1") := by
  intro supplied env
  refine ⟨fun h => ?_, fun f h => ?_, fun hv henv r hr => ?_⟩
  · rw [Cli.parseSplit, h]
  · rw [Cli.parseSplit, h]
    exact ⟨_, rfl, rfl⟩
  · rw [Cli.parseSplit] at hr
    cases hfind : supplied.lookup "input-file" with
    | none => rw [hfind] at hr; exact absurd hr (by simp)
    | some f =>
      rw [hfind] at hr
      simp only [Option.some.injEq] at hr
      rw [← hr]
      simp [hv, Cli.env_or_val, henv]

/-- Witness for C7 (amended) at concrete command lines. -/
theorem split_requires_input_file_witness :
    Cli.parseSplit [] (fun _ => none) = none
    ∧ ∃ r, Cli.parseSplit [("input-file", "f.yaml")] (fun _ => none) = some r
        ∧ r.input_file = "f.yaml" :=
  ⟨(split_requires_input_file [] (fun _ => none)).1 rfl,
   (split_requires_input_file [("input-file", "f.yaml")] (fun _ => none)).2.1
     "f.yaml" rfl⟩

/-- C8: both the `generate` and the `validate` sub-parsers expose the
configurable `--full-spec-file` argument, and when the caller does not
configure it and `APIGENTOOLS_FULL_SPEC_FILE` is unset its default
evaluates to "full_spec.yaml". -/
theorem full_spec_file_default :
    ∀ env : String → Option String,
      env "APIGENTOOLS_FULL_SPEC_FILE" = none →
      ∃ a : Cli.Arg,
        Cli.generateArgs.find? (fun x => x.name == "full-spec-file") = some a
        ∧ Cli.validateArgs.find? (fun x => x.name == "full-spec-file") = some a
        ∧ a.required = false
        ∧ a.default.map (Cli.DefaultSrc.eval env)
            = some (.str "full_spec.yaml") := by
  intro env h
  refine ⟨⟨"full-spec-file", false,
    some (.envOr "APIGENTOOLS_FULL_SPEC_FILE" "full_spec.yaml")⟩,
    by decide, by decide, rfl, ?_⟩
  simp [Cli.DefaultSrc.eval, Cli.env_or_val, h]

/-- Witness for C8 with an empty environment. -/
theorem full_spec_file_default_witness :
    ∃ a : Cli.Arg,
      Cli.generateArgs.find? (fun x => x.name == "full-spec-file") = some a
      ∧ Cli.validateArgs.find? (fun x => x.name == "full-spec-file") = some a
      ∧ a.required = false
      ∧ a.default.map (Cli.DefaultSrc.eval (fun _ => none))
          = some (.str "full_spec.yaml") :=
  full_spec_file_default (fun _ => none) rfl

/-- C9 counterexample: `--additional-stamp` is an argument of the parser
with a default value (the empty list) that is not supplied via an
environment-variable lookup. -/
theorem cli_default_env_counterexample :
    (⟨"additional-stamp", false, some .litList⟩ : Cli.Arg) ∈ Cli.allParserArgs
    ∧ (Cli.Arg.default ⟨"additional-stamp", false, some .litList⟩).isSome
    ∧ Cli.argDefaultFromEnv ⟨"additional-stamp", false, some .litList⟩
        = false := by
  decide

/-- C9 (amended): every CLI argument with a default value draws it from
an `APIGENTOOLS_*` environment-variable lookup, except the four literal
defaults `--additional-stamp`, `--builtin-templates`, `--repo_url` and
`git_committish`. -/
theorem cli_defaults_from_env :
    Cli.allParserArgs.all
      (fun a => Cli.argDefaultFromEnv a
        || ["additional-stamp", "builtin-templates", "repo_url",
            "git_committish"].contains a.name) = true := by
  decide

/-- C10: for the `generate` operation, `--template-dir` and
`--builtin-templates` are mutually exclusive: a command line supplying
both is rejected, and one supplying at most one of them passes the
group check (the sub-parser has no required arguments, so parsing
succeeds). -/
theorem generate_template_group_exclusive :
    ∀ supplied : List String,
      (("template-dir" ∈ supplied ∧ "builtin-templates" ∈ supplied) →
        Cli.parseGenerateOk supplied = false)
      ∧ (¬("template-dir" ∈ supplied ∧ "builtin-templates" ∈ supplied) →
        Cli.parseGenerateOk supplied = true) := by
  intro supplied
  constructor
  · rintro ⟨h1, h2⟩
    simp [Cli.parseGenerateOk, Cli.generateGroups, Cli.groupOk,
      List.filter, h1, h2]
  · intro h
    by_cases h1 : "template-dir" ∈ supplied
    · have h2 : "builtin-templates" ∉ supplied := fun hc => h ⟨h1, hc⟩
      simp [Cli.parseGenerateOk, Cli.generateGroups, Cli.groupOk,
        List.filter, h1, h2]
    · by_cases h2 : "builtin-templates" ∈ supplied
      · simp [Cli.parseGenerateOk, Cli.generateGroups, Cli.groupOk,
          List.filter, h1, h2]
      · simp [Cli.parseGenerateOk, Cli.generateGroups, Cli.groupOk,
          List.filter, h1, h2]

/-- Witness for C10 at concrete command lines. -/
theorem generate_template_group_exclusive_witness :
    Cli.parseGenerateOk ["template-dir", "builtin-templates"] = false
    ∧ Cli.parseGenerateOk ["template-dir"] = true :=
  ⟨(generate_template_group_exclusive _).1 (by decide),
   (generate_template_group_exclusive _).2 (by decide)⟩

/-! ## Merger lemmas -/

theorem tagEntries_keys (fragName : String) (c : List (String × Node)) :
    (tagEntries fragName c).map (fun e => e.1) = c.map Prod.fst := by
  induction c with
  | nil => rfl
  | cons kv rest ih => simp [tagEntries] at ih ⊢

theorem insertEntries_ok (fragName : String) :
    ∀ (entries : List (String × Node)) (acc : List TaggedEntry),
      (entries.map Prod.fst).Nodup →
      (∀ e ∈ acc, e.1 ∉ entries.map Prod.fst) →
      insertEntries fragName entries acc
        = .ok (acc ++ tagEntries fragName entries)
  | [], acc, _, _ => by simp [insertEntries, tagEntries]
  | (k, v) :: rest, acc, hnodup, hdisj => by
    rw [insertEntries]
    have hfind : acc.find? (fun e => e.1 == k) = none := by
      rw [List.find?_eq_none]
      intro e he
      simp only [beq_iff_eq]
      intro hk
      exact hdisj e he (by simp [hk])
    rw [hfind]
    rw [List.map_cons, List.nodup_cons] at hnodup
    have := insertEntries_ok fragName rest (acc ++ [(k, fragName, v)])
      hnodup.2
      (by
        intro e he
        rcases List.mem_append.mp he with h | h
        · intro hmem
          exact hdisj e h (by simp [hmem])
        · simp only [List.mem_singleton] at h
          rw [h]
          exact hnodup.1)
    rw [this, tagEntries]
    simp [tagEntries]

theorem insertEntries_ok_shape (fragName : String) :
    ∀ (entries : List (String × Node)) (acc l : List TaggedEntry),
      insertEntries fragName entries acc = .ok l →
      l = acc ++ tagEntries fragName entries
  | [], acc, l, h => by
    simp only [insertEntries] at h
    cases h
    simp [tagEntries]
  | (k, v) :: rest, acc, l, h => by
    rw [insertEntries] at h
    cases hfind : acc.find? (fun e => e.1 == k) with
    | some e => rw [hfind] at h; cases h
    | none =>
      rw [hfind] at h
      have := insertEntries_ok_shape fragName rest (acc ++ [(k, fragName, v)]) l h
      rw [this]
      simp [tagEntries]

theorem insertEntries_ok_nodup (fragName : String) :
    ∀ (entries : List (String × Node)) (acc l : List TaggedEntry),
      insertEntries fragName entries acc = .ok l →
      (acc.map (fun e => e.1)).Nodup →
      (l.map (fun e => e.1)).Nodup
  | [], acc, l, h, hacc => by
    simp only [insertEntries] at h
    cases h
    exact hacc
  | (k, v) :: rest, acc, l, h, hacc => by
    rw [insertEntries] at h
    cases hfind : acc.find? (fun e => e.1 == k) with
    | some e => rw [hfind] at h; cases h
    | none =>
      rw [hfind] at h
      refine insertEntries_ok_nodup fragName rest (acc ++ [(k, fragName, v)]) l h ?_
      rw [List.find?_eq_none] at hfind
      simp only [List.map_append, List.map_cons, List.map_nil]
      rw [List.nodup_append]
      refine ⟨hacc, List.nodup_singleton k, ?_⟩
      intro a ha
      simp only [List.mem_singleton]
      intro hk
      rcases List.mem_map.mp ha with ⟨e, he, hek⟩
      have := hfind e he
      simp only [beq_iff_eq] at this
      exact this (by rw [hek, hk])

theorem insertEntries_error (fragName : String) :
    ∀ (entries : List (String × Node)) (acc : List TaggedEntry)
      (e : MergeError),
      (entries.map Prod.fst).Nodup →
      insertEntries fragName entries acc = .error e →
      ∃ k fn n, e = .collision k fn fragName
        ∧ (k, fn, n) ∈ acc ∧ k ∈ entries.map Prod.fst
  | [], acc, e, _, h => by simp [insertEntries] at h
  | (k, v) :: rest, acc, e, hnodup, h => by
    rw [insertEntries] at h
    cases hfind : acc.find? (fun x => x.1 == k) with
    | some x =>
      rw [hfind] at h
      cases h
      have hmem := List.mem_of_find?_eq_some hfind
      have hkey := List.find?_some hfind
      simp only [beq_iff_eq] at hkey
      exact ⟨k, x.2.1, x.2.2, rfl, by rw [← hkey]; exact hmem, by simp⟩
    | none =>
      rw [hfind] at h
      rw [List.map_cons, List.nodup_cons] at hnodup
      obtain ⟨k', fn, n, he, hmem, hk'⟩ :=
        insertEntries_error fragName rest (acc ++ [(k, fragName, v)]) e
          hnodup.2 h
      rcases List.mem_append.mp hmem with hin | hin
      · exact ⟨k', fn, n, he, hin, by simp [hk']⟩
      · simp only [List.mem_singleton, Prod.mk.injEq] at hin
        exact absurd (hin.1 ▸ hk') hnodup.1

theorem taggedSection_cons (sk : SectionKind) (f : Fragment)
    (fs : List Fragment) :
    taggedSection sk (f :: fs)
      = if f.kind = sk then
          tagEntries f.name f.content ++ taggedSection sk fs
        else taggedSection sk fs := by
  by_cases h : f.kind = sk <;> simp [taggedSection, List.filter_cons, h]

theorem accumulateSection_ok (sk : SectionKind) :
    ∀ (frags : List Fragment) (acc : List TaggedEntry),
      (((acc ++ taggedSection sk frags).map (fun e => e.1)).Nodup) →
      accumulateSection sk frags acc = .ok (acc ++ taggedSection sk frags)
  | [], acc, _ => by simp [accumulateSection, taggedSection]
  | f :: fs, acc, h => by
    rw [accumulateSection]
    rw [taggedSection_cons] at h ⊢
    by_cases hk : f.kind = sk
    · simp only [if_pos hk] at h ⊢
      rw [← List.append_assoc] at h
      have hsplit := h
      rw [List.map_append, List.nodup_append] at hsplit
      obtain ⟨hleft, _, _⟩ := hsplit
      rw [List.map_append, List.nodup_append] at hleft
      obtain ⟨hacc, htag, hdisj⟩ := hleft
      rw [tagEntries_keys] at htag
      have hins := insertEntries_ok f.name f.content acc htag
        (by
          intro e he hmem
          exact hdisj (List.mem_map.mpr ⟨e, he, rfl⟩)
            (by rw [tagEntries_keys]; exact hmem))
      rw [hins]
      have := accumulateSection_ok sk fs (acc ++ tagEntries f.name f.content) h
      rw [← List.append_assoc]
      exact this
    · simp only [if_neg hk] at h ⊢
      exact accumulateSection_ok sk fs acc h

theorem accumulateSection_ok_shape (sk : SectionKind) :
    ∀ (frags : List Fragment) (acc l : List TaggedEntry),
      accumulateSection sk frags acc = .ok l →
      l = acc ++ taggedSection sk frags
  | [], acc, l, h => by
    simp only [accumulateSection] at h
    cases h
    simp [taggedSection]
  | f :: fs, acc, l, h => by
    rw [accumulateSection] at h
    rw [taggedSection_cons]
    by_cases hk : f.kind = sk
    · rw [if_pos hk] at h ⊢
      cases hins : insertEntries f.name f.content acc with
      | error e => rw [hins] at h; cases h
      | ok acc' =>
        rw [hins] at h
        rw [accumulateSection_ok_shape sk fs acc' l h,
          insertEntries_ok_shape f.name f.content acc acc' hins,
          List.append_assoc]
    · rw [if_neg hk] at h ⊢
      exact accumulateSection_ok_shape sk fs acc l h

theorem accumulateSection_ok_nodup (sk : SectionKind) :
    ∀ (frags : List Fragment) (acc l : List TaggedEntry),
      accumulateSection sk frags acc = .ok l →
      ((acc.map (fun e => e.1)).Nodup) →
      ((l.map (fun e => e.1)).Nodup)
  | [], acc, l, h, hacc => by
    simp only [accumulateSection] at h
    cases h
    exact hacc
  | f :: fs, acc, l, h, hacc => by
    rw [accumulateSection] at h
    by_cases hk : f.kind = sk
    · rw [if_pos hk] at h
      cases hins : insertEntries f.name f.content acc with
      | error e => rw [hins] at h; cases h
      | ok acc' =>
        rw [hins] at h
        exact accumulateSection_ok_nodup sk fs acc' l h
          (insertEntries_ok_nodup f.name f.content acc acc' hins hacc)
    · rw [if_neg hk] at h
      exact accumulateSection_ok_nodup sk fs acc l h hacc

theorem accumulateSection_error (sk : SectionKind) :
    ∀ (frags : List Fragment) (acc : List TaggedEntry) (e : MergeError),
      (∀ f ∈ frags, (f.content.map Prod.fst).Nodup) →
      accumulateSection sk frags acc = .error e →
      ∃ k fn f l₁ l₂ n, e = .collision k fn f.name
        ∧ frags = l₁ ++ f :: l₂ ∧ f.kind = sk
        ∧ k ∈ f.content.map Prod.fst
        ∧ (k, fn, n) ∈ acc ++ taggedSection sk l₁
  | [], acc, e, _, h => by simp [accumulateSection] at h
  | f :: fs, acc, e, hwf, h => by
    rw [accumulateSection] at h
    by_cases hk : f.kind = sk
    · rw [if_pos hk] at h
      cases hins : insertEntries f.name f.content acc with
      | error e' =>
        rw [hins] at h
        cases h
        obtain ⟨k, fn, n, he, hmem, hkey⟩ :=
          insertEntries_error f.name f.content acc e
            (hwf f (by simp)) hins
        exact ⟨k, fn, f, [], fs, n, he, by simp, hk, hkey,
          by simpa [taggedSection] using hmem⟩
      | ok acc' =>
        rw [hins] at h
        obtain ⟨k, fn, f', l₁, l₂, n, he, hfs, hk', hkey, hmem⟩ :=
          accumulateSection_error sk fs acc' e
            (fun g hg => hwf g (List.mem_cons_of_mem f hg)) h
        refine ⟨k, fn, f', f :: l₁, l₂, n, he, by simp [hfs], hk', hkey, ?_⟩
        rw [insertEntries_ok_shape f.name f.content acc acc' hins] at hmem
        rw [taggedSection_cons, if_pos hk]
        simpa [List.append_assoc] using hmem
    · rw [if_neg hk] at h
      obtain ⟨k, fn, f', l₁, l₂, n, he, hfs, hk', hkey, hmem⟩ :=
        accumulateSection_error sk fs acc e
          (fun g hg => hwf g (List.mem_cons_of_mem f hg)) h
      refine ⟨k, fn, f', f :: l₁, l₂, n, he, by simp [hfs], hk', hkey, ?_⟩
      rw [taggedSection_cons, if_neg hk]
      exact hmem

theorem taggedSection_append (sk : SectionKind) (l₁ l₂ : List Fragment) :
    taggedSection sk (l₁ ++ l₂)
      = taggedSection sk l₁ ++ taggedSection sk l₂ := by
  simp [taggedSection, List.filter_append]

theorem taggedSection_keys (sk : SectionKind) (frags : List Fragment) :
    (taggedSection sk frags).map (fun e => e.1)
      = (sectionEntries sk frags).map Prod.fst := by
  induction frags with
  | nil => rfl
  | cons f fs ih =>
    by_cases hk : f.kind = sk
    · rw [taggedSection_cons, if_pos hk]
      have hsec : sectionEntries sk (f :: fs)
          = f.content ++ sectionEntries sk fs := by
        simp [sectionEntries, List.filter_cons, hk]
      rw [hsec, List.map_append, List.map_append, tagEntries_keys, ih]
    · rw [taggedSection_cons, if_neg hk]
      have hsec : sectionEntries sk (f :: fs) = sectionEntries sk fs := by
        simp [sectionEntries, List.filter_cons, hk]
      rw [hsec, ih]

theorem mem_taggedSection (sk : SectionKind) (frags : List Fragment)
    (k fn : String) (n : Node) :
    (k, fn, n) ∈ taggedSection sk frags
      ↔ ∃ f ∈ frags, f.kind = sk ∧ f.name = fn ∧ (k, n) ∈ f.content := by
  constructor
  · intro h
    obtain ⟨f, hf, hx⟩ := List.mem_flatMap.mp h
    obtain ⟨hfm, hkind⟩ := List.mem_filter.mp hf
    obtain ⟨e, he, heq⟩ := List.mem_map.mp hx
    simp only [Prod.mk.injEq] at heq
    obtain ⟨h1, h2, h3⟩ := heq
    refine ⟨f, hfm, by simpa using hkind, h2, ?_⟩
    have : e = (k, n) := Prod.ext h1 h3
    rw [← this]
    exact he
  · rintro ⟨f, hfm, hkind, hname, hmem⟩
    refine List.mem_flatMap.mpr
      ⟨f, List.mem_filter.mpr ⟨hfm, by simp [hkind]⟩, ?_⟩
    exact List.mem_map.mpr ⟨(k, n), hmem, by simp [hname]⟩

theorem mem_keys_taggedSection {sk : SectionKind} {frags : List Fragment}
    {f : Fragment} {k : String} (hf : f ∈ frags) (hkind : f.kind = sk)
    (hk : k ∈ f.content.map Prod.fst) :
    k ∈ (taggedSection sk frags).map (fun e => e.1) := by
  obtain ⟨kv, hkv, hfst⟩ := List.mem_map.mp hk
  refine List.mem_map.mpr ⟨(k, f.name, kv.2), ?_, rfl⟩
  exact (mem_taggedSection sk frags k f.name kv.2).mpr
    ⟨f, hf, hkind, rfl, by rw [← hfst]; exact hkv⟩

theorem findDangling_eq_none (keys : List String) :
    ∀ frags : List Fragment,
      findDangling keys frags = none
        ↔ ∀ f ∈ frags, ∀ r ∈ fragmentRefs f, keys.contains r.target = true
  | [] => by simp [findDangling]
  | f :: fs => by
    rw [findDangling]
    cases hbad : findBadRef keys f with
    | some r =>
      refine iff_of_false (by simp) ?_
      intro hall
      have hmem := List.mem_of_find?_eq_some hbad
      have hpred := List.find?_some hbad
      simp only [Bool.not_eq_true'] at hpred
      have := hall f (by simp) r hmem
      rw [this] at hpred
      exact absurd hpred (by simp)
    | none =>
      rw [findDangling_eq_none keys fs]
      rw [findBadRef, List.find?_eq_none] at hbad
      constructor
      · intro h g hg r hr
        rcases List.mem_cons.mp hg with hgf | hgf
        · have := hbad r (hgf ▸ hr)
          simpa using this
        · exact h g hgf r hr
      · intro h g hg r hr
        exact h g (List.mem_cons_of_mem f hg) r hr

theorem findDangling_some (keys : List String) :
    ∀ (frags : List Fragment) (e : MergeError),
      findDangling keys frags = some e →
      ∃ f ∈ frags, ∃ r ∈ fragmentRefs f,
        e = .dangling r.render f.name ∧ keys.contains r.target = false
  | [], e, h => by simp [findDangling] at h
  | f :: fs, e, h => by
    rw [findDangling] at h
    cases hbad : findBadRef keys f with
    | some r =>
      rw [hbad] at h
      cases h
      have hmem := List.mem_of_find?_eq_some hbad
      have hpred := List.find?_some hbad
      simp only [Bool.not_eq_true'] at hpred
      exact ⟨f, by simp, r, hmem, rfl, hpred⟩
    | none =>
      rw [hbad] at h
      obtain ⟨g, hg, r, hr, he, hc⟩ := findDangling_some keys fs e h
      exact ⟨g, List.mem_cons_of_mem f hg, r, hr, he, hc⟩

/-- The canonical FullSpec a fragment set merges to. -/
theorem mergeFragments_ok_inv {frags : List Fragment} {fs : FullSpec}
    (h : mergeFragments frags = .ok fs) :
    fs = { info := none
         , paths := canonSection (taggedSection .paths frags)
         , schemas := canonSection (taggedSection .schemas frags)
         , tags := canonSection (taggedSection .tags frags) }
    ∧ (∀ sk, ((taggedSection sk frags).map (fun e => e.1)).Nodup)
    ∧ findDangling (accSchemaKeys (taggedSection .schemas frags)) frags
        = none := by
  rw [mergeFragments] at h
  cases hP : accumulateSection .paths frags [] with
  | error e => simp only [hP] at h; cases h
  | ok accP =>
    simp only [hP] at h
    cases hS : accumulateSection .schemas frags [] with
    | error e => simp only [hS] at h; cases h
    | ok accS =>
      simp only [hS] at h
      cases hT : accumulateSection .tags frags [] with
      | error e => simp only [hT] at h; cases h
      | ok accT =>
        simp only [hT] at h
        have hPs := accumulateSection_ok_shape _ _ _ _ hP
        have hSs := accumulateSection_ok_shape _ _ _ _ hS
        have hTs := accumulateSection_ok_shape _ _ _ _ hT
        rw [List.nil_append] at hPs hSs hTs
        subst hPs; subst hSs; subst hTs
        cases hD : findDangling (accSchemaKeys (taggedSection .schemas frags)) frags with
        | some e => simp only [hD] at h; cases h
        | none =>
          simp only [hD] at h
          cases h
          refine ⟨rfl, ?_, rfl⟩
          intro sk
          have := accumulateSection_ok_nodup sk frags []
          cases sk with
          | paths => exact this _ hP (by simp)
          | schemas => exact this _ hS (by simp)
          | tags => exact this _ hT (by simp)

/-- Merging succeeds on collision-free, dangling-free fragment sets,
producing the canonical FullSpec. -/
theorem mergeFragments_ok_build {frags : List Fragment}
    (hnodup : ∀ sk, ((taggedSection sk frags).map (fun e => e.1)).Nodup)
    (hd : findDangling (accSchemaKeys (taggedSection .schemas frags)) frags
      = none) :
    mergeFragments frags
      = .ok { info := none
            , paths := canonSection (taggedSection .paths frags)
            , schemas := canonSection (taggedSection .schemas frags)
            , tags := canonSection (taggedSection .tags frags) } := by
  have hP := accumulateSection_ok .paths frags [] (by simpa using hnodup .paths)
  have hS := accumulateSection_ok .schemas frags [] (by simpa using hnodup .schemas)
  have hT := accumulateSection_ok .tags frags [] (by simpa using hnodup .tags)
  rw [List.nil_append] at hP hS hT
  simp only [mergeFragments, hP, hS, hT, hd]

/-- C2: when two fragments both define the same top-level key (with each
individual fragment duplicate-free), merging raises a CollisionError
that names a genuinely colliding key together with both contributing
fragments, one strictly before the other; in particular no FullSpec is
produced, so the second definition is never silently overwritten. -/
theorem merge_collision_error (frags : List Fragment)
    (hwf : ∀ f ∈ frags, (f.content.map Prod.fst).Nodup)
    (hcol : HasCollision frags) :
    ∃ k a b, mergeFragments frags = .error (.collision k a b)
      ∧ TwoContributors frags k a b := by
  obtain ⟨k0, a0, b0, l₁, f₂, l₂, f₁, hfr, hf₁, hkind, _, _, hk₁, hk₂⟩ := hcol
  have hdup : ¬ ((taggedSection f₂.kind frags).map (fun e => e.1)).Nodup := by
    intro hnd
    rw [hfr, taggedSection_append, taggedSection_cons, if_pos rfl] at hnd
    rw [List.map_append, List.nodup_append] at hnd
    obtain ⟨_, _, hdisj⟩ := hnd
    have hmem₁ : k0 ∈ (taggedSection f₂.kind l₁).map (fun e => e.1) :=
      mem_keys_taggedSection hf₁ hkind hk₁
    have hmem₂ : k0 ∈ (tagEntries f₂.name f₂.content
        ++ taggedSection f₂.kind l₂).map (fun e => e.1) := by
      rw [List.map_append, tagEntries_keys]
      exact List.mem_append_left _ hk₂
    exact hdisj hmem₁ hmem₂
  have main : ∀ sk (e : MergeError),
      accumulateSection sk frags [] = .error e →
      ∃ k a b, e = .collision k a b ∧ TwoContributors frags k a b := by
    intro sk e he
    obtain ⟨k, fn, f, g₁, g₂, n, heq, hfrags, hfk, hkey, hmem⟩ :=
      accumulateSection_error sk frags [] e hwf he
    rw [List.nil_append] at hmem
    obtain ⟨f', hf', hk', hn', hc'⟩ :=
      (mem_taggedSection sk g₁ k fn n).mp hmem
    refine ⟨k, fn, f.name, heq, ?_⟩
    exact ⟨g₁, f, g₂, f', hfrags, hf', by rw [hk', hfk], hn', rfl,
      List.mem_map.mpr ⟨(k, n), hc', rfl⟩, hkey⟩
  cases hP : accumulateSection .paths frags [] with
  | error e =>
    obtain ⟨k, a, b, he, htwo⟩ := main .paths e hP
    exact ⟨k, a, b, by simp only [mergeFragments, hP, he], htwo⟩
  | ok accP =>
    cases hS : accumulateSection .schemas frags [] with
    | error e =>
      obtain ⟨k, a, b, he, htwo⟩ := main .schemas e hS
      exact ⟨k, a, b, by simp only [mergeFragments, hP, hS, he], htwo⟩
    | ok accS =>
      cases hT : accumulateSection .tags frags [] with
      | error e =>
        obtain ⟨k, a, b, he, htwo⟩ := main .tags e hT
        exact ⟨k, a, b, by simp only [mergeFragments, hP, hS, hT, he], htwo⟩
      | ok accT =>
        exfalso
        apply hdup
        have hnod : ∀ sk accX,
            accumulateSection sk frags [] = .ok accX →
            ((taggedSection sk frags).map (fun e => e.1)).Nodup := by
          intro sk accX hX
          have hshape := accumulateSection_ok_shape _ _ _ _ hX
          rw [List.nil_append] at hshape
          have := accumulateSection_ok_nodup sk frags [] accX hX (by simp)
          rw [hshape] at this
          exact this
        cases hck : f₂.kind with
        | paths => exact hnod _ accP hP
        | schemas => exact hnod _ accS hS
        | tags => exact hnod _ accT hT

/-- Witness for C2: merging two schema fragments that both define
`User` fails with a collision. -/
theorem merge_collision_error_witness :
    ∃ k a b,
      mergeFragments [exFragSchemas, exFragSchemas2]
        = .error (.collision k a b)
      ∧ TwoContributors [exFragSchemas, exFragSchemas2] k a b :=
  merge_collision_error _
    (by
      intro f hf
      rcases List.mem_cons.mp hf with h | h
      · rw [h]; decide
      · rcases List.mem_cons.mp h with h2 | h2
        · rw [h2]; decide
        · cases h2)
    ⟨"User", "user", "account",
      [exFragSchemas], exFragSchemas2, [], exFragSchemas,
      rfl, by simp, rfl, rfl, rfl, by simp [exFragSchemas],
      by simp [exFragSchemas2]⟩

theorem accSchemaKeys_taggedSection (frags : List Fragment) :
    accSchemaKeys (taggedSection .schemas frags) = allSchemaKeys frags :=
  taggedSection_keys .schemas frags

/-- C5: a collision-free fragment set containing a reference whose
target schema is absent from the full fragment set fails to merge with a
DanglingReferenceError naming the offending pointer and its source
fragment. -/
theorem merge_dangling_error (frags : List Fragment)
    (hnodup : ∀ sk, ((taggedSection sk frags).map (fun e => e.1)).Nodup)
    (hd : HasDangler frags) :
    ∃ ptr fname, mergeFragments frags = .error (.dangling ptr fname)
      ∧ ∃ f ∈ frags, f.name = fname ∧ ∃ r ∈ fragmentRefs f,
          r.render = ptr
          ∧ (allSchemaKeys frags).contains r.target = false := by
  cases hD : findDangling (allSchemaKeys frags) frags with
  | none =>
    exfalso
    obtain ⟨f, hf, r, hr, hc⟩ := hd
    have := (findDangling_eq_none _ frags).mp hD f hf r hr
    rw [this] at hc
    exact absurd hc (by simp)
  | some e =>
    obtain ⟨f, hf, r, hr, he, hc⟩ := findDangling_some _ frags e hD
    refine ⟨r.render, f.name, ?_, f, hf, rfl, r, hr, rfl, hc⟩
    have hP := accumulateSection_ok .paths frags []
      (by simpa using hnodup .paths)
    have hS := accumulateSection_ok .schemas frags []
      (by simpa using hnodup .schemas)
    have hT := accumulateSection_ok .tags frags []
      (by simpa using hnodup .tags)
    rw [List.nil_append] at hP hS hT
    have hD' : findDangling
        (accSchemaKeys (taggedSection .schemas frags)) frags = some e := by
      rw [accSchemaKeys_taggedSection]
      exact hD
    simp only [mergeFragments, hP, hS, hT, hD', he]

/-- Witness for C5: a fragment referencing the absent schema `Missing`
makes the merge fail with a dangling-reference error. -/
theorem merge_dangling_error_witness :
    ∃ ptr fname,
      mergeFragments [exFragDangling] = .error (.dangling ptr fname)
      ∧ ∃ f ∈ [exFragDangling], f.name = fname ∧ ∃ r ∈ fragmentRefs f,
          r.render = ptr
          ∧ (allSchemaKeys [exFragDangling]).contains r.target = false :=
  merge_dangling_error _
    (by intro sk; cases sk <;> decide)
    ⟨exFragDangling, by simp, .qual "Missing", by decide, by decide⟩

/-! ## Merge-order independence -/

theorem find?_key_eq_of_perm {l₁ l₂ : List TaggedEntry}
    (hp : l₁.Perm l₂) :
    ((l₁.map (fun e => e.1)).Nodup) →
    ∀ k, l₁.find? (fun e => e.1 == k) = l₂.find? (fun e => e.1 == k) := by
  induction hp with
  | nil => intro _ _; rfl
  | cons x h ih =>
    intro hnd k
    rw [List.map_cons, List.nodup_cons] at hnd
    cases hx : (x.1 == k) <;>
      simp [List.find?_cons, hx, ih hnd.2 k]
  | swap x y l =>
    intro hnd k
    cases hx : (x.1 == k) <;> cases hy : (y.1 == k) <;>
      simp [List.find?_cons, hx, hy]
    simp only [List.map_cons, List.nodup_cons, List.mem_cons] at hnd
    simp only [beq_iff_eq] at hx hy
    exact absurd (Or.inl (hy.trans hx.symm)) hnd.1
  | trans h₁ h₂ ih₁ ih₂ =>
    intro hnd k
    rw [ih₁ hnd k, ih₂ ((h₁.map (fun e => e.1)).nodup hnd) k]

theorem sortKeys_perm (ks : List String) : (sortKeys ks).Perm ks :=
  List.perm_insertionSort _ _

theorem sortKeys_eq_of_perm {ks₁ ks₂ : List String} (h : ks₁.Perm ks₂) :
    sortKeys ks₁ = sortKeys ks₂ :=
  List.eq_of_perm_of_sorted
    ((sortKeys_perm ks₁).trans (h.trans (sortKeys_perm ks₂).symm))
    (List.sorted_insertionSort _ _)
    (List.sorted_insertionSort _ _)

theorem canonSection_eq_of_perm {l₁ l₂ : List TaggedEntry}
    (h : l₁.Perm l₂) (hnd : (l₁.map (fun e => e.1)).Nodup) :
    canonSection l₁ = canonSection l₂ := by
  have hlook : ∀ k, lookupTagged k l₁ = lookupTagged k l₂ := by
    intro k
    rw [lookupTagged, lookupTagged, find?_key_eq_of_perm h hnd k]
  rw [canonSection, canonSection,
    sortKeys_eq_of_perm (h.map (fun e => e.1))]
  simp only [hlook]

theorem taggedSection_perm {frags₁ frags₂ : List Fragment}
    (hp : frags₁.Perm frags₂) (sk : SectionKind) :
    (taggedSection sk frags₁).Perm (taggedSection sk frags₂) := by
  rw [taggedSection, taggedSection]
  exact List.Perm.flatMap_right _ (hp.filter _)

/-- C3: merging is independent of fragment enumeration order: a
permutation of a fragment set that merges successfully merges to the
identical FullSpec document. -/
theorem merge_order_independent (frags₁ frags₂ : List Fragment)
    (fs : FullSpec) (hp : frags₁.Perm frags₂)
    (h : mergeFragments frags₁ = .ok fs) :
    mergeFragments frags₂ = .ok fs := by
  obtain ⟨hfs, hnd, hdang⟩ := mergeFragments_ok_inv h
  have htag := taggedSection_perm hp
  have hnd₂ : ∀ sk,
      ((taggedSection sk frags₂).map (fun e => e.1)).Nodup :=
    fun sk => ((htag sk).map _).nodup (hnd sk)
  have hdang₂ : findDangling
      (accSchemaKeys (taggedSection .schemas frags₂)) frags₂ = none := by
    rw [accSchemaKeys_taggedSection, findDangling_eq_none]
    intro f hf r hr
    have hf₁ : f ∈ frags₁ := hp.mem_iff.mpr hf
    have h1 := (findDangling_eq_none _ frags₁).mp
      (accSchemaKeys_taggedSection frags₁ ▸ hdang) f hf₁ r hr
    have hm : r.target ∈ allSchemaKeys frags₁ := by simpa using h1
    have hkeysperm : (allSchemaKeys frags₁).Perm (allSchemaKeys frags₂) := by
      rw [← accSchemaKeys_taggedSection, ← accSchemaKeys_taggedSection]
      exact (htag .schemas).map _
    have : r.target ∈ allSchemaKeys frags₂ := hkeysperm.mem_iff.mp hm
    simpa using this
  rw [mergeFragments_ok_build hnd₂ hdang₂, hfs,
    ← canonSection_eq_of_perm (htag .paths) (hnd .paths),
    ← canonSection_eq_of_perm (htag .schemas) (hnd .schemas),
    ← canonSection_eq_of_perm (htag .tags) (hnd .tags)]

/-- Witness for C3: the example fragment set merges to the same
FullSpec after swapping its two fragments. -/
theorem merge_order_independent_witness :
    mergeFragments [exFragSchemas, exFragPaths] = .ok exMerged :=
  merge_order_independent exFrags [exFragSchemas, exFragPaths] exMerged
    (List.Perm.swap exFragSchemas exFragPaths []) rfl

/-! ## Round-trip lemmas -/

theorem lookupTagged_of_mem {l : List TaggedEntry}
    (hnd : (l.map (fun e => e.1)).Nodup) {k fn : String} {n : Node}
    (hm : (k, fn, n) ∈ l) : lookupTagged k l = some n := by
  induction l with
  | nil => cases hm
  | cons e rest ih =>
    rw [List.map_cons, List.nodup_cons] at hnd
    rcases List.mem_cons.mp hm with he | he
    · rw [← he]
      simp [lookupTagged, List.find?_cons]
    · have hk : k ∈ rest.map (fun x => x.1) :=
        List.mem_map.mpr ⟨(k, fn, n), he, rfl⟩
      have hne : (e.1 == k) = false := by
        simp only [beq_eq_false_iff_ne, ne_eq]
        intro hh
        exact hnd.1 (hh ▸ hk)
      rw [lookupTagged, List.find?_cons, hne]
      exact ih hnd.2 he

theorem lookupTagged_some {l : List TaggedEntry} {k : String} {n : Node}
    (h : lookupTagged k l = some n) : ∃ fn, (k, fn, n) ∈ l := by
  rw [lookupTagged] at h
  cases hf : l.find? (fun e => e.1 == k) with
  | none => rw [hf] at h; cases h
  | some e =>
    obtain ⟨a, b, c⟩ := e
    rw [hf] at h
    simp only [Option.map_some', Option.some.injEq] at h
    have hm := List.mem_of_find?_eq_some hf
    have hp := List.find?_some hf
    simp only [beq_iff_eq] at hp
    refine ⟨b, ?_⟩
    rw [← hp, ← h]
    exact hm

theorem mem_canonSection {l : List TaggedEntry}
    (hnd : (l.map (fun e => e.1)).Nodup) (k : String) (m : Node) :
    (k, m) ∈ canonSection l
      ↔ ∃ fn n, (k, fn, n) ∈ l ∧ m = qualifyNode n := by
  rw [canonSection]
  constructor
  · intro h
    obtain ⟨k', hk', heq⟩ := List.mem_filterMap.mp h
    cases hl : lookupTagged k' l with
    | none => rw [hl] at heq; cases heq
    | some n =>
      rw [hl] at heq
      simp only [Option.map_some', Option.some.injEq, Prod.mk.injEq] at heq
      obtain ⟨hkk, hm⟩ := heq
      obtain ⟨fn, hmem⟩ := lookupTagged_some (hkk ▸ hl)
      exact ⟨fn, n, hmem, hm.symm⟩
  · rintro ⟨fn, n, hmem, rfl⟩
    refine List.mem_filterMap.mpr ⟨k, ?_, ?_⟩
    · exact (sortKeys_perm _).mem_iff.mpr
        (List.mem_map.mpr ⟨(k, fn, n), hmem, rfl⟩)
    · rw [lookupTagged_of_mem hnd hmem]
      rfl

theorem mem_sectionEntries {sk : SectionKind} {frags : List Fragment}
    {kv : String × Node} :
    kv ∈ sectionEntries sk frags
      ↔ ∃ f ∈ frags, f.kind = sk ∧ kv ∈ f.content := by
  rw [sectionEntries]
  simp only [List.mem_flatMap, List.mem_filter, decide_eq_true_eq]
  tauto

theorem kind_mem_splitSection {v : String} {sk : SectionKind}
    {entries : List (String × Node)} {f : Fragment}
    (h : f ∈ splitSection v sk entries) : f.kind = sk := by
  rw [splitSection] at h
  obtain ⟨g, hg, rfl⟩ := List.mem_map.mp h
  rfl

theorem content_splitSection_iff (v : String) (sk : SectionKind)
    (entries : List (String × Node)) (kv : String × Node) :
    (∃ f ∈ splitSection v sk entries, kv ∈ f.content)
      ↔ kv ∈ entries.map (fun e => (e.1, relativizeNode e.2)) := by
  constructor
  · rintro ⟨f, hf, hkv⟩
    rw [splitSection] at hf
    obtain ⟨g, hg, rfl⟩ := List.mem_map.mp hf
    obtain ⟨e, he, rfl⟩ := List.mem_map.mp hkv
    exact List.mem_map.mpr ⟨e, (List.mem_filter.mp he).1, rfl⟩
  · intro h
    obtain ⟨e, he, rfl⟩ := List.mem_map.mp h
    refine ⟨_, List.mem_map.mpr ⟨groupOf sk e.1, ?_, rfl⟩, ?_⟩
    · exact List.mem_dedup.mpr (List.mem_map.mpr ⟨e, he, rfl⟩)
    · exact List.mem_map.mpr ⟨e, List.mem_filter.mpr ⟨he, by simp⟩, rfl⟩

theorem mem_splitSpec {fs : FullSpec} {v : String} {f : Fragment} :
    f ∈ splitSpec fs v
      ↔ ∃ sk, f ∈ splitSection v sk (fs.sectionOf sk) := by
  rw [splitSpec]
  constructor
  · intro h
    rcases List.mem_append.mp h with h1 | hc
    · rcases List.mem_append.mp h1 with ha | hb
      · exact ⟨.paths, ha⟩
      · exact ⟨.schemas, hb⟩
    · exact ⟨.tags, hc⟩
  · rintro ⟨sk, hsk⟩
    cases sk with
    | paths =>
      exact List.mem_append.mpr (Or.inl (List.mem_append.mpr (Or.inl hsk)))
    | schemas =>
      exact List.mem_append.mpr (Or.inl (List.mem_append.mpr (Or.inr hsk)))
    | tags => exact List.mem_append.mpr (Or.inr hsk)

theorem mem_splitSpec_section {fs : FullSpec} {v : String}
    {sk : SectionKind} {kv : String × Node} :
    kv ∈ sectionEntries sk (splitSpec fs v)
      ↔ kv ∈ (fs.sectionOf sk).map (fun e => (e.1, relativizeNode e.2)) := by
  rw [mem_sectionEntries, ← content_splitSection_iff v sk (fs.sectionOf sk) kv]
  constructor
  · rintro ⟨f, hf, hkind, hkv⟩
    obtain ⟨sk', hsk'⟩ := mem_splitSpec.mp hf
    have hk' := kind_mem_splitSection hsk'
    have heq : sk' = sk := by rw [← hk', hkind]
    subst heq
    exact ⟨f, hsk', hkv⟩
  · rintro ⟨f, hf, hkv⟩
    exact ⟨f, mem_splitSpec.mpr ⟨sk, hf⟩, kind_mem_splitSection hf, hkv⟩

theorem localPairs_mem {c : List (String × Node)}
    (h : localPairs c = true) {k : String} {n : Node}
    (hm : (k, n) ∈ c) : localNode n = true := by
  induction c with
  | nil => cases hm
  | cons e rest ih =>
    obtain ⟨a, b⟩ := e
    rw [localPairs, Bool.and_eq_true] at h
    rcases List.mem_cons.mp hm with he | he
    · simp only [Prod.mk.injEq] at he
      rw [he.2]
      exact h.1
    · exact ih h.2 he

/-- C1: for a fragment set whose references are fragment-local and
which merges successfully (hence collision- and dangling-free),
splitting the merged FullSpec for any version yields a fragment set
with exactly the same keys and content per section as the original;
only the fragment-name grouping may differ, which the equivalence
excludes. -/
theorem split_merge_roundtrip (frags : List Fragment) (fs : FullSpec)
    (v : String)
    (hlocal : ∀ f ∈ frags, localPairs f.content = true)
    (hok : mergeFragments frags = .ok fs) :
    FragSetEquiv (splitSpec fs v) frags := by
  obtain ⟨hfs, hnd, _⟩ := mergeFragments_ok_inv hok
  subst hfs
  intro sk kv
  rw [mem_splitSpec_section]
  have hsec : ∀ sk : SectionKind,
      FullSpec.sectionOf
        { info := none
        , paths := canonSection (taggedSection .paths frags)
        , schemas := canonSection (taggedSection .schemas frags)
        , tags := canonSection (taggedSection .tags frags) } sk
        = canonSection (taggedSection sk frags) := by
    intro sk; cases sk <;> rfl
  rw [hsec sk]
  obtain ⟨k, m⟩ := kv
  constructor
  · intro h
    obtain ⟨e, he, heq⟩ := List.mem_map.mp h
    obtain ⟨ek, em⟩ := e
    obtain ⟨fn, n, hmem, hq⟩ := (mem_canonSection (hnd sk) ek em).mp he
    obtain ⟨f, hf, hkind, _, hcont⟩ :=
      (mem_taggedSection sk frags ek fn n).mp hmem
    have hln : localNode n = true := localPairs_mem (hlocal f hf) hcont
    have hrel : relativizeNode em = n := by
      rw [hq]
      exact rel_qual_node n hln
    rw [mem_sectionEntries]
    refine ⟨f, hf, hkind, ?_⟩
    simp only [Prod.mk.injEq] at heq
    rw [← heq.1, ← heq.2, hrel]
    exact hcont
  · intro h
    obtain ⟨f, hf, hkind, hcont⟩ := mem_sectionEntries.mp h
    have hln : localNode m = true := localPairs_mem (hlocal f hf) hcont
    refine List.mem_map.mpr ⟨(k, qualifyNode m), ?_, ?_⟩
    · apply (mem_canonSection (hnd sk) k (qualifyNode m)).mpr
      exact ⟨f.name, m,
        (mem_taggedSection sk frags k f.name m).mpr
          ⟨f, hf, hkind, rfl, hcont⟩, rfl⟩
    · simp [rel_qual_node m hln]

/-- Witness for C1 on the example fragment set. -/
theorem split_merge_roundtrip_witness :
    FragSetEquiv (splitSpec exMerged "v1") exFrags :=
  split_merge_roundtrip exFrags exMerged "v1" (by decide) rfl

end Apigentools
